import Mathlib

/-!
Verification of the hippiepug key-value Merkle tree (src/hippiepug/tree.py).

Python strings (lookup keys) are modelled as lists of naturals (code points),
compared lexicographically exactly as Python compares strings.  Byte payloads
are likewise lists of naturals.

The repository modules struct.py (TreeNode / TreeLeaf records), pack.py
(encode / decode) and store.py (content-addressed object store) are not part
of the provided source; they are modelled from the spec (sections 3 and 6):
the codec is a deterministic injective encoding and the hash is a
deterministic collision-free content address, so a content address is
represented here by the content it addresses.  Under this idealization a
node hash is the node value itself and a payload hash is the payload bytes.
-/

namespace Hippiepug

/-- Lookup keys: Python strings as lists of code points. -/
abbrev Key := List Nat

/-- Serialized payloads: byte strings as lists of naturals. -/
abbrev Bytes := List Nat

/-- Python string comparison a < b: lexicographic, a proper prefix is
smaller than any of its extensions. -/
def keyLt : Key → Key → Bool
  | [], [] => false
  | [], _ :: _ => true
  | _ :: _, [] => false
  | a :: as, b :: bs => if a < b then true else if b < a then false else keyLt as bs

/-- Modelled from the spec: the node records of struct.py.  TreeLeaf carries
lookup_key and payload_hash (the content address of the payload, here the
payload bytes themselves under the ideal-hash model).  TreeNode carries
pivot_prefix and the two child hashes left_hash / right_hash (content
addresses of the children's encodings, here the child nodes themselves);
either child reference may be absent, as in the Python record. -/
inductive Node where
  | leaf (lookup_key : Key) (payload_hash : Bytes)
  | node (pp : Key) (left_hash : Option Node) (right_hash : Option Node)
deriving Repr

/-- Boolean structural equality on nodes. -/
def Node.beq : Node → Node → Bool
  | .leaf k p, .leaf k' p' => decide (k = k') && decide (p = p')
  | .node pp l r, .node pp' l' r' =>
      decide (pp = pp') &&
      (match l, l' with
       | none, none => true
       | some a, some b => Node.beq a b
       | _, _ => false) &&
      (match r, r' with
       | none, none => true
       | some a, some b => Node.beq a b
       | _, _ => false)
  | _, _ => false

theorem Node.beq_iff_eq : ∀ a b : Node, Node.beq a b = true ↔ a = b
  | .leaf _ _, .leaf _ _ => by simp [Node.beq]
  | .leaf _ _, .node _ _ _ => by simp [Node.beq]
  | .node _ _ _, .leaf _ _ => by simp [Node.beq]
  | .node pp l r, .node pp' l' r' => by
      cases l <;> cases l' <;> cases r <;> cases r' <;>
        simp [Node.beq, Node.beq_iff_eq, and_assoc]

instance : DecidableEq Node := fun a b =>
  decidable_of_iff _ (Node.beq_iff_eq a b)

/-- The helper get_node_key of _make_subtree: a leaf's lookup_key, an
internal node's pivot_prefix. -/
def getNodeKey : Node → Key
  | .leaf k _ => k
  | .node pp _ _ => pp

/-- All leaf lookup keys reachable inside a node, left to right. -/
def leafKeys : Node → List Key
  | .leaf k _ => [k]
  | .node _ none none => []
  | .node _ (some l) none => leafKeys l
  | .node _ none (some r) => leafKeys r
  | .node _ (some l) (some r) => leafKeys l ++ leafKeys r

/-- The node together with all nodes reachable through child references. -/
def subNodes : Node → List Node
  | .leaf k p => [.leaf k p]
  | .node pp none none => [.node pp none none]
  | .node pp (some l) none => .node pp (some l) none :: subNodes l
  | .node pp none (some r) => .node pp none (some r) :: subNodes r
  | .node pp (some l) (some r) => .node pp (some l) (some r) :: (subNodes l ++ subNodes r)

/-- An internal node has both child references present; leaves trivially
satisfy this. -/
def childrenPresent : Node → Bool
  | .leaf _ _ => true
  | .node _ l r => l.isSome && r.isSome

/-- Longest common prefix of two keys, character by character. -/
def commonPrefix2 : Key → Key → Key
  | a :: as, b :: bs => if a = b then a :: commonPrefix2 as bs else []
  | _, _ => []

/-- Python os.path.commonprefix: the longest common prefix of a list of
strings (empty for the empty list). -/
def commonPrefixOf : List Key → Key
  | [] => []
  | k :: ks => ks.foldl commonPrefix2 k

/-- Modelled from the spec: the two kinds of byte blocks the object store
holds, tagged by the logical content they decode to — a raw serialized
payload, or the encoding of a tree node.  The codec is injective and
deterministic, so a block is represented by its decoded content. -/
inductive StoreObj where
  | payload (b : Bytes)
  | node (n : Node)
deriving DecidableEq, Repr

/-- Modelled from the spec: a content-addressed object store (store.py).
Only the set of stored blocks matters; hash_object is deterministic and
collision-free, so the content address of a block is the block itself. -/
structure Store where
  objects : List StoreObj
deriving DecidableEq, Repr

/-- Store.add: persist a block (content addressed, idempotent up to
membership). -/
def Store.add (s : Store) (o : StoreObj) : Store := ⟨o :: s.objects⟩

/-- Store.get: retrieve a block by its content address; absent blocks give
none.  Integrity checking always succeeds in the ideal-hash model, since a
stored block is exactly the content its address names. -/
def Store.get (s : Store) (o : StoreObj) : Option StoreObj :=
  if o ∈ s.objects then some o else none

/-- Resolve a node hash through the store and decode it, as
Tree.get_node_by_hash does on a cache miss (the trusted cache only memoizes
successful store reads, so it is semantically transparent and omitted). -/
def resolveNode (s : Store) (h : Node) : Option Node :=
  match s.get (StoreObj.node h) with
  | some (StoreObj.node n) => some n
  | _ => none

theorem resolveNode_eq (s : Store) (h : Node) :
    resolveNode s h = if StoreObj.node h ∈ s.objects then some h else none := by
  by_cases hm : StoreObj.node h ∈ s.objects <;> simp [resolveNode, Store.get, hm]

/-- Pending items of a builder: an association list mirroring a Python dict
(insertion-ordered, distinct keys). -/
abbrev Items := List (Key × Bytes)

/-- Keys of an item list, in order. -/
def itemKeys (items : Items) : List Key := items.map Prod.fst

/-- TreeBuilder (tree.py): an object store plus the staged items dict. -/
structure TreeBuilder where
  object_store : Store
  items : Items

/-- Dict assignment items[lookup_key] = value: overwrite in place if the key
is present, else append. -/
def dictSet (items : Items) (k : Key) (v : Bytes) : Items :=
  if items.any (fun p => p.1 = k) then
    items.map (fun p => if p.1 = k then (k, v) else p)
  else items ++ [(k, v)]

/-- TreeBuilder.__setitem__: stage an item for committing to the tree. -/
def TreeBuilder.setItem (b : TreeBuilder) (k : Key) (v : Bytes) : TreeBuilder :=
  ⟨b.object_store, dictSet b.items k v⟩

/-- TreeBuilder._make_subtree: build the flattened node list of a subtree
from sorted items.  Mirrors tree.py lines 142-195: an empty argument raises
ValueError (modelled as none); a single item becomes a leaf whose
payload_hash is hash_object of the serialized payload (ideal hash: the
payload itself); otherwise split at middle = len // 2, recurse on
items[:middle] and items[middle:] (the right partition keeps the pivot
item), compute the minimal pivot from the common prefix of the midpoint key
and the first key of each child, hash the two child roots, and return the
internal node followed by both flattened child lists.  The unreachable
Python crashes (indexing an empty list) are also modelled as none. -/
def TreeBuilder.makeSubtree : Items → Option (List Node)
  | [] => none
  | [(key, serialized_obj)] => some [Node.leaf key serialized_obj]
  | x :: y :: rest =>
      let items := x :: y :: rest
      let middle := items.length / 2
      match items.drop middle with
      | [] => none
      | (pk, _) :: _ =>
        match TreeBuilder.makeSubtree (items.take middle),
              TreeBuilder.makeSubtree (items.drop middle) with
        | some left_nodes, some right_nodes =>
          match left_nodes, right_nodes with
          | left_child :: _, right_child :: _ =>
            let cands := [pk, getNodeKey left_child, getNodeKey right_child]
            let cp := commonPrefixOf cands
            let pp := pk.take (max 1 (cp.length + 1))
            some (Node.node pp (some left_child) (some right_child)
                    :: (left_nodes ++ right_nodes))
          | _, _ => none
        | _, _ => none
termination_by items => items.length
decreasing_by
  all_goals simp [List.length_take, List.length_drop]
  all_goals omega

/-- Insert an item into a list sorted by key ascending. -/
def insertSorted (p : Key × Bytes) : Items → Items
  | [] => [p]
  | q :: qs => if keyLt p.1 q.1 then p :: q :: qs else q :: insertSorted p qs

/-- Python sorted(items, key = first component): sort the staged items by
lookup key ascending under string comparison. -/
def sortByKey (items : Items) : Items := items.foldr insertSorted []

/-- Tree (tree.py): a read view over the object store, rooted at the hash
of the root node (ideal hash: the root node itself). -/
structure Tree where
  object_store : Store
  root : Node

/-- TreeBuilder.commit (tree.py lines 198-214): sort the staged items, build
the node list, persist every node and every payload, and return the Tree
rooted at the root node's hash.  The Python object store is mutated in
place and the items dict is left untouched, so the post-commit builder state
is returned alongside the new tree; a ValueError from _make_subtree (or the
unreachable nodes[0] crash) is modelled as none. -/
def TreeBuilder.commit (b : TreeBuilder) : Option (TreeBuilder × Tree) :=
  match TreeBuilder.makeSubtree (sortByKey b.items) with
  | none => none
  | some nodes =>
    let store1 := nodes.foldl (fun s n => s.add (StoreObj.node n)) b.object_store
    let store2 := (b.items.map Prod.snd).foldl (fun s v => s.add (StoreObj.payload v)) store1
    match nodes with
    | [] => none
    | root_node :: _ => some (⟨store2, b.items⟩, ⟨store2, root_node⟩)

/-- Errors a lookup can surface: KeyError (legitimate absence) or an
unhandled crash from descending into an unresolvable child. -/
inductive LookupError where
  | keyError
  | crash
deriving DecidableEq, Repr

/-- Tree.get_node_by_hash: resolve a node hash via the store. -/
def Tree.getNodeByHash (t : Tree) (h : Node) : Option Node :=
  resolveNode t.object_store h

/-- The while loop of Tree.get_inclusion_proof, started at a resolved node:
at an internal node, resolve both children; if lookup_key < pivot_prefix
descend left and append the resolved right child (when present) to the
closure, else descend right and append the resolved left child; stop at a
leaf and append it to the path.  Descending into an absent or unresolvable
child makes the next iteration crash on None (modelled as the crash
error). -/
def proofLoop (s : Store) (key : Key) : Node → Except LookupError (List Node × List Node)
  | .leaf k p => .ok ([Node.leaf k p], [])
  | .node _ none none => .error .crash
  | .node pp (some l) none =>
      if keyLt key pp then
        match resolveNode s l with
        | none => .error .crash
        | some _ =>
          match proofLoop s key l with
          | .ok (path, closure) => .ok (Node.node pp (some l) none :: path, closure)
          | .error e => .error e
      else .error .crash
  | .node pp none (some r) =>
      if keyLt key pp then .error .crash
      else
        match resolveNode s r with
        | none => .error .crash
        | some _ =>
          match proofLoop s key r with
          | .ok (path, closure) => .ok (Node.node pp none (some r) :: path, closure)
          | .error e => .error e
  | .node pp (some l) (some r) =>
      if keyLt key pp then
        match resolveNode s l with
        | none => .error .crash
        | some _ =>
          match proofLoop s key l with
          | .ok (path, closure) =>
              .ok (Node.node pp (some l) (some r) :: path,
                   (resolveNode s r).toList ++ closure)
          | .error e => .error e
      else
        match resolveNode s r with
        | none => .error .crash
        | some _ =>
          match proofLoop s key r with
          | .ok (path, closure) =>
              .ok (Node.node pp (some l) (some r) :: path,
                   (resolveNode s l).toList ++ closure)
          | .error e => .error e

/-- Tree.get_inclusion_proof: resolve the root and run the descent loop. -/
def Tree.getInclusionProof (t : Tree) (key : Key) :
    Except LookupError (List Node × List Node) :=
  match t.getNodeByHash t.root with
  | some root_node => proofLoop t.object_store key root_node
  | none => .error .crash

/-- Tree.__getitem__: run the proof traversal; if the terminal path node is
a leaf whose lookup_key equals the queried key, return the payload bytes
fetched from the store (Python returns whatever get yields, even None),
otherwise raise KeyError. -/
def Tree.getItem (t : Tree) (key : Key) : Except LookupError (Option Bytes) :=
  match t.getInclusionProof key with
  | .error e => .error e
  | .ok (path, _) =>
    match path.getLast? with
    | some (Node.leaf k ph) =>
        if k = key then
          .ok (match t.object_store.get (StoreObj.payload ph) with
               | some (StoreObj.payload b) => some b
               | _ => none)
        else .error .keyError
    | some (Node.node _ _ _) => .error .crash
    | none => .error .keyError

/-- Tree.__contains__: true when __getitem__ returns, false when it raises
KeyError; any other exception propagates. -/
def Tree.containsKey (t : Tree) (key : Key) : Except LookupError Bool :=
  match t.getItem key with
  | .ok _ => .ok true
  | .error .keyError => .ok false
  | .error .crash => .error .crash


/-! Basic facts about the key ordering. -/

theorem keyLt_irrefl : ∀ a : Key, keyLt a a = false
  | [] => rfl
  | _ :: as => by simp [keyLt, keyLt_irrefl as]

theorem keyLt_asymm : ∀ a b : Key, keyLt a b = true → keyLt b a = false
  | [], [] => by simp [keyLt]
  | [], _ :: _ => by simp [keyLt]
  | _ :: _, [] => by simp [keyLt]
  | a :: as, b :: bs => fun h => by
      simp only [keyLt] at h ⊢
      rcases Nat.lt_trichotomy a b with hab | hab | hab
      · simp [Nat.lt_asymm hab, hab]
      · subst hab
        simp [lt_irrefl] at h ⊢
        exact keyLt_asymm as bs h
      · simp [Nat.lt_asymm hab, hab] at h

theorem keyLt_trans : ∀ a b c : Key, keyLt a b = true → keyLt b c = true → keyLt a c = true
  | [], [], [] => by simp [keyLt]
  | [], [], _ :: _ => by simp [keyLt]
  | [], _ :: _, [] => by simp [keyLt]
  | [], _ :: _, _ :: _ => by simp [keyLt]
  | _ :: _, [], _ => by simp [keyLt]
  | _ :: _, _ :: _, [] => by simp [keyLt]
  | a :: as, b :: bs, c :: cs => fun h1 h2 => by
      simp only [keyLt] at h1 h2 ⊢
      rcases Nat.lt_trichotomy a b with hab | hab | hab
      · rcases Nat.lt_trichotomy b c with hbc | hbc | hbc
        · simp [show a < c from by omega]
        · subst hbc; simp [hab]
        · simp [Nat.lt_asymm hbc, hbc] at h2
      · subst hab
        simp [lt_irrefl] at h1
        rcases Nat.lt_trichotomy a c with hac | hac | hac
        · simp [hac]
        · subst hac
          simp [lt_irrefl] at h2 ⊢
          exact keyLt_trans as bs cs h1 h2
        · simp [Nat.lt_asymm hac, hac] at h2
      · simp [Nat.lt_asymm hab, hab] at h1

theorem keyLt_connex : ∀ a b : Key, a ≠ b → keyLt a b = true ∨ keyLt b a = true
  | [], [] => fun h => absurd rfl h
  | [], _ :: _ => fun _ => Or.inl (by simp [keyLt])
  | _ :: _, [] => fun _ => Or.inr (by simp [keyLt])
  | a :: as, b :: bs => fun h => by
      simp only [keyLt]
      rcases Nat.lt_trichotomy a b with hab | hab | hab
      · simp [hab]
      · subst hab
        have hne : as ≠ bs := fun hh => h (by rw [hh])
        simpa [lt_irrefl] using keyLt_connex as bs hne
      · simp [Nat.lt_asymm hab, hab]

/-! Sorting facts: sortByKey is a permutation and is determined by the
key-value multiset when keys are distinct. -/

/-- Non-strict order on items induced by key comparison. -/
def leKey (p q : Key × Bytes) : Prop := keyLt q.1 p.1 = false

/-- Strict order on items induced by key comparison. -/
def ltKey (p q : Key × Bytes) : Prop := keyLt p.1 q.1 = true

theorem insertSorted_perm (p : Key × Bytes) : ∀ l : Items, List.Perm (insertSorted p l) (p :: l)
  | [] => List.Perm.refl _
  | q :: qs => by
      simp only [insertSorted]
      split
      · exact List.Perm.refl _
      · exact (List.Perm.cons q (insertSorted_perm p qs)).trans (List.Perm.swap p q qs)

theorem sortByKey_perm : ∀ l : Items, List.Perm (sortByKey l) l
  | [] => List.Perm.refl _
  | x :: l => by
      have h1 : sortByKey (x :: l) = insertSorted x (sortByKey l) := rfl
      rw [h1]
      exact (insertSorted_perm x (sortByKey l)).trans (List.Perm.cons x (sortByKey_perm l))

theorem insertSorted_pairwise (p : Key × Bytes) :
    ∀ l : Items, l.Pairwise leKey → (insertSorted p l).Pairwise leKey
  | [], _ => by simp [insertSorted]
  | q :: qs, h => by
      rw [List.pairwise_cons] at h
      obtain ⟨hq, hqs⟩ := h
      simp only [insertSorted]
      split
      · next hlt =>
          rw [List.pairwise_cons]
          refine ⟨?_, List.pairwise_cons.mpr ⟨hq, hqs⟩⟩
          intro x hx
          rcases List.mem_cons.mp hx with rfl | hx
          · exact keyLt_asymm _ _ hlt
          · by_contra hc
            have hc' : keyLt x.1 p.1 = true := by
              cases hxx : keyLt x.1 p.1
              · exact absurd hxx hc
              · rfl
            have := keyLt_trans _ _ _ hc' hlt
            rw [hq x hx] at this
            exact Bool.noConfusion this
      · next hge =>
          rw [List.pairwise_cons]
          constructor
          · intro x hx
            have hx' : x ∈ p :: qs := (insertSorted_perm p qs).mem_iff.mp hx
            rcases List.mem_cons.mp hx' with rfl | hx'
            · simpa [leKey] using Bool.eq_false_iff.mpr (fun hh => hge (by simp [hh]))
            · exact hq x hx'
          · exact insertSorted_pairwise p qs hqs

theorem sortByKey_pairwise : ∀ l : Items, (sortByKey l).Pairwise leKey
  | [] => List.Pairwise.nil
  | x :: l => insertSorted_pairwise x (sortByKey l) (sortByKey_pairwise l)

theorem sortByKey_pairwise_lt (l : Items) (hn : (itemKeys l).Nodup) :
    (sortByKey l).Pairwise ltKey := by
  have hperm : List.Perm (sortByKey l) l := sortByKey_perm l
  have hn' : (itemKeys (sortByKey l)).Nodup :=
    ((hperm.map Prod.fst).nodup_iff).mpr hn
  have hne : (sortByKey l).Pairwise (fun p q => p.1 ≠ q.1) :=
    List.pairwise_map.mp hn'
  have hle : (sortByKey l).Pairwise leKey := sortByKey_pairwise l
  refine (hle.and hne).imp ?_
  rintro p q ⟨h1, h2⟩
  rcases keyLt_connex p.1 q.1 h2 with h | h
  · exact h
  · rw [leKey, h] at h1
    exact Bool.noConfusion h1

instance : IsAntisymm (Key × Bytes) ltKey :=
  ⟨fun a b h1 h2 => absurd (keyLt_asymm _ _ h1) (by rw [ltKey] at h2; simp [h2])⟩

/-- A permutation of item lists with distinct keys sorts identically: the
sorted order is determined by the staged key-value set. -/
theorem sortByKey_eq_of_perm (l1 l2 : Items) (hp : List.Perm l1 l2)
    (hn : (itemKeys l1).Nodup) : sortByKey l1 = sortByKey l2 := by
  have hn2 : (itemKeys l2).Nodup := ((hp.map Prod.fst).nodup_iff).mp hn
  have hperm : List.Perm (sortByKey l1) (sortByKey l2) :=
    ((sortByKey_perm l1).trans hp).trans (sortByKey_perm l2).symm
  exact List.eq_of_perm_of_sorted hperm
    (sortByKey_pairwise_lt l1 hn) (sortByKey_pairwise_lt l2 hn2)

/-! Structure of the node lists produced by _make_subtree. -/

/-- Inversion of the recursive case of _make_subtree: a successful build of
two or more items recurses on items[:middle] and items[middle:], and yields
the internal node (carrying the truncated midpoint key and the hashes of
the two child roots) followed by both flattened child lists. -/
theorem makeSubtree_cons_inv (x y : Key × Bytes) (rest : Items) (nodes : List Node)
    (h : TreeBuilder.makeSubtree (x :: y :: rest) = some nodes) :
    ∃ pk pv lc lt rc rt,
      ((x :: y :: rest).drop ((x :: y :: rest).length / 2)).head? = some (pk, pv) ∧
      TreeBuilder.makeSubtree ((x :: y :: rest).take ((x :: y :: rest).length / 2)) = some (lc :: lt) ∧
      TreeBuilder.makeSubtree ((x :: y :: rest).drop ((x :: y :: rest).length / 2)) = some (rc :: rt) ∧
      nodes = Node.node (pk.take (max 1 ((commonPrefixOf [pk, getNodeKey lc, getNodeKey rc]).length + 1)))
                (some lc) (some rc) :: ((lc :: lt) ++ (rc :: rt)) := by
  rw [TreeBuilder.makeSubtree] at h
  split at h
  · exact Option.noConfusion h
  · next xs pk pv tail hdrop =>
      split at h
      · next o1 o2 ln rn hleft hright =>
          split at h
          · next lc lt rc rt =>
              simp only [Prod.mk.eta] at hdrop hleft hright
              injection h with h
              subst h
              exact ⟨pk, pv, lc, lt, rc, rt, by rw [hdrop]; rfl, hleft, hright, rfl⟩
          · exact Option.noConfusion h
      · exact Option.noConfusion h

theorem self_mem_subNodes : ∀ n : Node, n ∈ subNodes n := by
  intro n
  match n with
  | .leaf k p => simp [subNodes]
  | .node pp none none => simp [subNodes]
  | .node pp (some l) none => simp [subNodes]
  | .node pp none (some r) => simp [subNodes]
  | .node pp (some l) (some r) => simp [subNodes]

theorem mem_foldl_add {α : Type} (f : α → StoreObj) :
    ∀ (l : List α) (s : Store) (o : StoreObj),
      (o ∈ (l.foldl (fun s x => s.add (f x)) s).objects ↔
        o ∈ s.objects ∨ o ∈ l.map f)
  | [], s, o => by simp
  | x :: l, s, o => by
      simp only [List.foldl_cons, List.map_cons, List.mem_cons]
      rw [mem_foldl_add f l (s.add (f x)) o]
      simp [Store.add]
      tauto

/-- Structural soundness of _make_subtree: a successful build returns a
non-empty pre-order list whose head is the subtree root; the root's leaf
keys are exactly the item keys in order, every node reachable from the root
is listed, and every listed internal node carries both child hashes. -/
theorem makeSubtree_struct :
    ∀ (N : Nat) (items : Items) (nodes : List Node),
      items.length ≤ N → TreeBuilder.makeSubtree items = some nodes →
      ∃ root tl, nodes = root :: tl ∧ leafKeys root = itemKeys items ∧
        (∀ m ∈ subNodes root, m ∈ nodes) ∧ (∀ n ∈ nodes, childrenPresent n = true) := by
  intro N
  induction N with
  | zero =>
      intro items nodes hlen h
      have hit : items = [] := List.length_eq_zero.mp (Nat.le_zero.mp hlen)
      subst hit
      rw [TreeBuilder.makeSubtree] at h
      exact Option.noConfusion h
  | succ N ih =>
      intro items nodes hlen h
      match items, hlen, h with
      | [], _, h =>
          rw [TreeBuilder.makeSubtree] at h
          exact Option.noConfusion h
      | [(k, v)], _, h =>
          rw [TreeBuilder.makeSubtree] at h
          injection h with h
          subst h
          refine ⟨Node.leaf k v, [], rfl, by simp [leafKeys, itemKeys], ?_, ?_⟩
          · intro m hm
            simpa [subNodes] using hm
          · intro n hn
            rcases List.mem_singleton.mp hn with rfl
            rfl
      | x :: y :: rest, hlen, h =>
          obtain ⟨pk, pv, lc, lt, rc, rt, hdrop, hleft, hright, hnodes⟩ :=
            makeSubtree_cons_inv x y rest nodes h
          have hlen2 : (x :: y :: rest).length = rest.length + 2 := by simp
          have hta : ((x :: y :: rest).take ((x :: y :: rest).length / 2)).length ≤ N := by
            simp only [List.length_take, hlen2]
            simp only [hlen2] at hlen
            omega
          have hdr : ((x :: y :: rest).drop ((x :: y :: rest).length / 2)).length ≤ N := by
            simp only [List.length_drop, hlen2]
            simp only [hlen2] at hlen
            omega
          obtain ⟨rootL, tlL, hL0, hL1, hL2, hL3⟩ := ih _ _ hta hleft
          obtain ⟨rootR, tlR, hR0, hR1, hR2, hR3⟩ := ih _ _ hdr hright
          injection hL0 with e1 e2
          injection hR0 with e3 e4
          subst e1; subst e2; subst e3; subst e4
          subst hnodes
          refine ⟨_, _, rfl, ?_, ?_, ?_⟩
          · show leafKeys (Node.node _ (some lc) (some rc)) = _
            rw [show leafKeys (Node.node
                  (pk.take (max 1 ((commonPrefixOf [pk, getNodeKey lc, getNodeKey rc]).length + 1)))
                  (some lc) (some rc)) = leafKeys lc ++ leafKeys rc from rfl]
            rw [hL1, hR1, itemKeys, itemKeys, itemKeys, ← List.map_append, List.take_append_drop]
          · intro mm hmm
            rw [show subNodes (Node.node
                  (pk.take (max 1 ((commonPrefixOf [pk, getNodeKey lc, getNodeKey rc]).length + 1)))
                  (some lc) (some rc)) = Node.node
                  (pk.take (max 1 ((commonPrefixOf [pk, getNodeKey lc, getNodeKey rc]).length + 1)))
                  (some lc) (some rc) :: (subNodes lc ++ subNodes rc) from rfl] at hmm
            rcases List.mem_cons.mp hmm with rfl | hmm
            · exact List.mem_cons_self _ _
            · rcases List.mem_append.mp hmm with hmm | hmm
              · have := hL2 mm hmm
                simp only [List.mem_cons, List.mem_append] at this ⊢
                tauto
              · have := hR2 mm hmm
                simp only [List.mem_cons, List.mem_append] at this ⊢
                tauto
          · intro n hn
            simp only [List.mem_cons, List.mem_append] at hn
            rcases hn with rfl | hn | hn
            · rfl
            · exact hL3 n (by simp [hn])
            · exact hR3 n (by simp [hn])

/-! Behavior of the proof traversal on trees whose nodes are all stored. -/

/-- On a node all of whose reachable nodes are in the store and whose
internal nodes carry both child hashes, the descent loop succeeds and ends
at a leaf whose lookup key is one of the tree's leaf keys. -/
theorem proofLoop_ok :
    ∀ (s : Store) (key : Key) (n : Node),
      (∀ m ∈ subNodes n, childrenPresent m = true) →
      (∀ m ∈ subNodes n, StoreObj.node m ∈ s.objects) →
      ∃ path closure k p, proofLoop s key n = .ok (path, closure) ∧
        path.getLast? = some (.leaf k p) ∧ k ∈ leafKeys n
  | _, _, .leaf k p, _, _ => ⟨[.leaf k p], [], k, p, rfl, by simp, by simp [leafKeys]⟩
  | s, key, .node pp none rh, hcp, _ => by
      have := hcp _ (self_mem_subNodes (.node pp none rh))
      simp [childrenPresent] at this
  | s, key, .node pp (some l) none, hcp, _ => by
      have := hcp _ (self_mem_subNodes (.node pp (some l) none))
      simp [childrenPresent] at this
  | s, key, .node pp (some l) (some r), hcp, hst => by
      have hsubl : ∀ m ∈ subNodes l, m ∈ subNodes (Node.node pp (some l) (some r)) := by
        intro m hm
        rw [show subNodes (Node.node pp (some l) (some r)) =
              Node.node pp (some l) (some r) :: (subNodes l ++ subNodes r) from rfl]
        simp [hm]
      have hsubr : ∀ m ∈ subNodes r, m ∈ subNodes (Node.node pp (some l) (some r)) := by
        intro m hm
        rw [show subNodes (Node.node pp (some l) (some r)) =
              Node.node pp (some l) (some r) :: (subNodes l ++ subNodes r) from rfl]
        simp [hm]
      have hsl : StoreObj.node l ∈ s.objects := hst l (hsubl l (self_mem_subNodes l))
      have hsr : StoreObj.node r ∈ s.objects := hst r (hsubr r (self_mem_subNodes r))
      have hkeys : leafKeys (Node.node pp (some l) (some r)) = leafKeys l ++ leafKeys r := rfl
      cases hk : keyLt key pp with
      | true =>
          obtain ⟨path, closure, k, p, heq, hlast, hkin⟩ :=
            proofLoop_ok s key l (fun m hm => hcp m (hsubl m hm)) (fun m hm => hst m (hsubl m hm))
          refine ⟨Node.node pp (some l) (some r) :: path,
            (resolveNode s r).toList ++ closure, k, p, ?_, ?_, ?_⟩
          · rw [show proofLoop s key (Node.node pp (some l) (some r)) =
                  (if keyLt key pp then
                    match resolveNode s l with
                    | none => .error .crash
                    | some _ =>
                      match proofLoop s key l with
                      | .ok (path, closure) =>
                          .ok (Node.node pp (some l) (some r) :: path,
                               (resolveNode s r).toList ++ closure)
                      | .error e => .error e
                  else
                    match resolveNode s r with
                    | none => .error .crash
                    | some _ =>
                      match proofLoop s key r with
                      | .ok (path, closure) =>
                          .ok (Node.node pp (some l) (some r) :: path,
                               (resolveNode s l).toList ++ closure)
                      | .error e => .error e) from rfl]
            rw [resolveNode_eq]
            simp [hk, hsl, heq]
          · have hne : path ≠ [] := by
              intro hh
              rw [hh] at hlast
              simp at hlast
            obtain ⟨p1, path', rfl⟩ := List.exists_cons_of_ne_nil hne
            simpa using hlast
          · rw [hkeys]
            exact List.mem_append.mpr (Or.inl hkin)
      | false =>
          obtain ⟨path, closure, k, p, heq, hlast, hkin⟩ :=
            proofLoop_ok s key r (fun m hm => hcp m (hsubr m hm)) (fun m hm => hst m (hsubr m hm))
          refine ⟨Node.node pp (some l) (some r) :: path,
            (resolveNode s l).toList ++ closure, k, p, ?_, ?_, ?_⟩
          · rw [show proofLoop s key (Node.node pp (some l) (some r)) =
                  (if keyLt key pp then
                    match resolveNode s l with
                    | none => .error .crash
                    | some _ =>
                      match proofLoop s key l with
                      | .ok (path, closure) =>
                          .ok (Node.node pp (some l) (some r) :: path,
                               (resolveNode s r).toList ++ closure)
                      | .error e => .error e
                  else
                    match resolveNode s r with
                    | none => .error .crash
                    | some _ =>
                      match proofLoop s key r with
                      | .ok (path, closure) =>
                          .ok (Node.node pp (some l) (some r) :: path,
                               (resolveNode s l).toList ++ closure)
                      | .error e => .error e) from rfl]
            rw [resolveNode_eq s r]
            simp [hk, hsr, heq]
          · have hne : path ≠ [] := by
              intro hh
              rw [hh] at hlast
              simp at hlast
            obtain ⟨p1, path', rfl⟩ := List.exists_cons_of_ne_nil hne
            simpa using hlast
          · rw [hkeys]
            exact List.mem_append.mpr (Or.inr hkin)

/-! Commit-level facts. -/

/-- Inversion of commit: a successful commit built its node list from the
sorted staged items, the tree's root heads that list, the staged items are
left untouched, and every built node is stored in the returned tree's
object store. -/
theorem commit_inv (b b' : TreeBuilder) (t : Tree)
    (h : TreeBuilder.commit b = some (b', t)) :
    ∃ tl, TreeBuilder.makeSubtree (sortByKey b.items) = some (t.root :: tl) ∧
      b'.items = b.items ∧ b'.object_store = t.object_store ∧
      (∀ n ∈ t.root :: tl, StoreObj.node n ∈ t.object_store.objects) := by
  rw [TreeBuilder.commit] at h
  split at h
  · exact Option.noConfusion h
  · next nodes hmk =>
      split at h
      · exact Option.noConfusion h
      · next root tl =>
          injection h with h
          injection h with h1 h2
          subst h1
          subst h2
          refine ⟨tl, hmk, rfl, rfl, ?_⟩
          intro n hn
          rw [show (Hippiepug.Tree.mk
                ((b.items.map Prod.snd).foldl (fun s v => s.add (StoreObj.payload v))
                  ((root :: tl).foldl (fun s n => s.add (StoreObj.node n)) b.object_store))
                root).object_store =
              ((b.items.map Prod.snd).foldl (fun s v => s.add (StoreObj.payload v))
                  ((root :: tl).foldl (fun s n => s.add (StoreObj.node n)) b.object_store)) from rfl]
          rw [mem_foldl_add]
          left
          rw [mem_foldl_add]
          right
          exact List.mem_map_of_mem StoreObj.node hn

theorem itemKeys_sortByKey_perm (l : Items) :
    List.Perm (itemKeys (sortByKey l)) (itemKeys l) :=
  (sortByKey_perm l).map Prod.fst

/-- A committed tree is well formed: its leaf keys are the sorted staged
keys, every reachable internal node carries both child hashes, and every
reachable node is present in the tree's object store. -/
theorem commit_tree_ok (b b' : TreeBuilder) (t : Tree)
    (h : TreeBuilder.commit b = some (b', t)) :
    leafKeys t.root = itemKeys (sortByKey b.items) ∧
    (∀ m ∈ subNodes t.root, childrenPresent m = true) ∧
    (∀ m ∈ subNodes t.root, StoreObj.node m ∈ t.object_store.objects) := by
  obtain ⟨tl, hmk, hbi, hbs, hmem⟩ := commit_inv b b' t h
  obtain ⟨root, tl', hcons, hkeys, hsub, hcp⟩ :=
    makeSubtree_struct (sortByKey b.items).length _ _ le_rfl hmk
  injection hcons with e1 e2
  subst e1
  subst e2
  exact ⟨hkeys, fun m hm => hcp m (hsub m hm), fun m hm => hmem m (hsub m hm)⟩

/-- Lookup on a committed tree: the traversal always succeeds and ends at a
leaf holding one of the staged keys; item retrieval succeeds when that
terminal leaf carries the queried key and raises KeyError when it does
not. -/
theorem commit_lookup (b b' : TreeBuilder) (t : Tree)
    (h : TreeBuilder.commit b = some (b', t)) (key : Key) :
    ∃ path closure k p, Tree.getInclusionProof t key = .ok (path, closure) ∧
      path.getLast? = some (Node.leaf k p) ∧ k ∈ itemKeys b.items ∧
      (k = key → ∃ v, Tree.getItem t key = .ok v) ∧
      (k ≠ key → Tree.getItem t key = .error .keyError) := by
  obtain ⟨hkeys, hcp, hst⟩ := commit_tree_ok b b' t h
  obtain ⟨path, closure, k, p, heq, hlast, hkin⟩ :=
    proofLoop_ok t.object_store key t.root hcp hst
  have hroot : StoreObj.node t.root ∈ t.object_store.objects :=
    hst t.root (self_mem_subNodes _)
  have hincl : Tree.getInclusionProof t key = .ok (path, closure) := by
    rw [Tree.getInclusionProof, Tree.getNodeByHash, resolveNode_eq]
    simp [hroot, heq]
  rw [hkeys] at hkin
  have hkin' : k ∈ itemKeys b.items :=
    (itemKeys_sortByKey_perm b.items).mem_iff.mp hkin
  refine ⟨path, closure, k, p, hincl, hlast, hkin', ?_, ?_⟩
  · intro hk
    subst hk
    exact ⟨(match t.object_store.get (StoreObj.payload p) with
            | some (StoreObj.payload b) => some b
            | _ => none), by rw [Tree.getItem, hincl]; simp [hlast]⟩
  · intro hk
    rw [Tree.getItem, hincl]
    simp [hlast, hk]

/-! Concrete examples used to witness the theorems. -/

instance {ε α : Type} [DecidableEq ε] [DecidableEq α] : DecidableEq (Except ε α) := fun a b =>
  match a, b with
  | .error e, .error f => decidable_of_iff (e = f) ⟨fun h => by rw [h], fun h => by injection h⟩
  | .error _, .ok _ => isFalse (fun h => Except.noConfusion h)
  | .ok _, .error _ => isFalse (fun h => Except.noConfusion h)
  | .ok x, .ok y => decidable_of_iff (x = y) ⟨fun h => by rw [h], fun h => by injection h⟩

/-- A two-item builder over an empty store, mirroring the docstring example
(two keys with distinct first characters). -/
def exB : TreeBuilder := ⟨⟨[]⟩, [([5,6,6],[1]), ([2,0,9],[2])]⟩

/-- The root the two-item builder commits to. -/
def exRoot : Node := .node [5] (some (.leaf [2,0,9] [2])) (some (.leaf [5,6,6] [1]))

/-- The store contents after committing the two-item builder. -/
def exObjs : List StoreObj :=
  [.payload [2], .payload [1], .node (.leaf [5,6,6] [1]), .node (.leaf [2,0,9] [2]),
   .node exRoot]

/-- The builder state after the two-item commit. -/
def exBPost : TreeBuilder := ⟨⟨exObjs⟩, exB.items⟩

/-- The tree returned by the two-item commit. -/
def exTree : Tree := ⟨⟨exObjs⟩, exRoot⟩

theorem exB_commit : TreeBuilder.commit exB = some (exBPost, exTree) := by
  simp [exB, exBPost, exTree, exRoot, exObjs, TreeBuilder.commit,
    TreeBuilder.makeSubtree, sortByKey, insertSorted, keyLt, commonPrefixOf,
    commonPrefix2, getNodeKey, itemKeys, Store.add]

/-- A three-item builder whose keys (read as strings) are aa, ab and b:
the pivot-truncation slip loses the key aa. -/
def cexB : TreeBuilder := ⟨⟨[]⟩, [([0,0],[10]), ([0,1],[11]), ([1],[12])]⟩

/-- The root the three-item builder commits to: the top pivot is truncated
to the single character 0, yet the left subtree holds the key 00 which does
not compare below 0. -/
def cexRoot : Node :=
  .node [0] (some (.leaf [0,0] [10]))
    (some (.node [1] (some (.leaf [0,1] [11])) (some (.leaf [1] [12]))))

/-- The store contents after committing the three-item builder. -/
def cexObjs : List StoreObj :=
  [.payload [12], .payload [11], .payload [10],
   .node (.leaf [1] [12]), .node (.leaf [0,1] [11]),
   .node (.node [1] (some (.leaf [0,1] [11])) (some (.leaf [1] [12]))),
   .node (.leaf [0,0] [10]), .node cexRoot]

/-- The builder state after the three-item commit. -/
def cexBPost : TreeBuilder := ⟨⟨cexObjs⟩, cexB.items⟩

/-- The tree returned by the three-item commit. -/
def cexTree : Tree := ⟨⟨cexObjs⟩, cexRoot⟩

theorem cexB_commit : TreeBuilder.commit cexB = some (cexBPost, cexTree) := by
  simp [cexB, cexBPost, cexTree, cexRoot, cexObjs, TreeBuilder.commit,
    TreeBuilder.makeSubtree, sortByKey, insertSorted, keyLt, commonPrefixOf,
    commonPrefix2, getNodeKey, itemKeys, Store.add]

/-! Claims. -/

/-- C7: committing a builder with zero pending entries fails (the
ValueError from _make_subtree propagates) and returns no tree; the empty
construction itself fails. -/
theorem claim_C7 (s : Store) :
    TreeBuilder.commit ⟨s, []⟩ = none ∧ TreeBuilder.makeSubtree ([] : Items) = none := by
  constructor
  · rw [TreeBuilder.commit]
    rw [show sortByKey ([] : Items) = [] from rfl, TreeBuilder.makeSubtree]
  · rw [TreeBuilder.makeSubtree]

/-- C9: every internal node reachable in a committed tree carries both
child hashes, and the single-item base case builds a leaf, not an internal
node. -/
theorem claim_C9 :
    (∀ (b b' : TreeBuilder) (t : Tree), TreeBuilder.commit b = some (b', t) →
        ∀ m ∈ subNodes t.root, childrenPresent m = true) ∧
    (∀ (k : Key) (v : Bytes), TreeBuilder.makeSubtree [(k, v)] = some [Node.leaf k v]) := by
  constructor
  · intro b b' t h m hm
    exact (commit_tree_ok b b' t h).2.1 m hm
  · intro k v
    rw [TreeBuilder.makeSubtree]

/-- C9 witness: the committed two-item example tree has both child hashes
on its root. -/
theorem claim_C9_witness : childrenPresent exRoot = true :=
  claim_C9.1 exB exBPost exTree exB_commit exRoot (by decide)

/-- C10: commit leaves the staged items untouched, and committing again on
the resulting state succeeds with the same root hash. -/
theorem claim_C10 (b b' : TreeBuilder) (t : Tree)
    (h : TreeBuilder.commit b = some (b', t)) :
    b'.items = b.items ∧
    ∃ b'' t', TreeBuilder.commit b' = some (b'', t') ∧ t'.root = t.root := by
  obtain ⟨tl, hmk, hbi, hbs, hmem⟩ := commit_inv b b' t h
  refine ⟨hbi, ?_⟩
  have hmk' : TreeBuilder.makeSubtree (sortByKey b'.items) = some (t.root :: tl) := by
    rw [hbi]
    exact hmk
  refine ⟨⟨(b'.items.map Prod.snd).foldl (fun s v => s.add (StoreObj.payload v))
            ((t.root :: tl).foldl (fun s n => s.add (StoreObj.node n)) b'.object_store),
          b'.items⟩,
         ⟨(b'.items.map Prod.snd).foldl (fun s v => s.add (StoreObj.payload v))
            ((t.root :: tl).foldl (fun s n => s.add (StoreObj.node n)) b'.object_store),
          t.root⟩, ?_, rfl⟩
  rw [TreeBuilder.commit, hmk']

/-- C10 witness: recommitting the two-item example yields the same root. -/
theorem claim_C10_witness :
    exBPost.items = exB.items ∧
    ∃ b'' t', TreeBuilder.commit exBPost = some (b'', t') ∧ t'.root = exTree.root :=
  claim_C10 exB exBPost exTree exB_commit

/-- The root of a commit depends only on the sorted staged items: it is the
head of the node list _make_subtree builds. -/
theorem commit_map_root (b : TreeBuilder) :
    Option.map (fun p => p.2.root) (TreeBuilder.commit b) =
      Option.bind (TreeBuilder.makeSubtree (sortByKey b.items)) List.head? := by
  rw [TreeBuilder.commit]
  cases hmk : TreeBuilder.makeSubtree (sortByKey b.items) with
  | none => rfl
  | some nodes =>
      cases nodes with
      | nil => rfl
      | cons root tl => rfl

/-- C8: two fresh builders staging the same key-value set (distinct keys)
over any stores commit to the same root hash. -/
theorem claim_C8 (s1 s2 : Store) (items1 items2 : Items)
    (hp : List.Perm items1 items2) (hn : (itemKeys items1).Nodup) :
    Option.map (fun p => p.2.root) (TreeBuilder.commit ⟨s1, items1⟩) =
    Option.map (fun p => p.2.root) (TreeBuilder.commit ⟨s2, items2⟩) := by
  rw [commit_map_root, commit_map_root]
  rw [show (⟨s1, items1⟩ : TreeBuilder).items = items1 from rfl,
      show (⟨s2, items2⟩ : TreeBuilder).items = items2 from rfl,
      sortByKey_eq_of_perm items1 items2 hp hn]

/-- C8 witness: the two-item set staged in either order over different
stores commits to the same root. -/
theorem claim_C8_witness :
    Option.map (fun p => p.2.root)
      (TreeBuilder.commit ⟨⟨[]⟩, [([5,6,6],[1]), ([2,0,9],[2])]⟩) =
    Option.map (fun p => p.2.root)
      (TreeBuilder.commit ⟨⟨[.payload [7]]⟩, [([2,0,9],[2]), ([5,6,6],[1])]⟩) :=
  claim_C8 ⟨[]⟩ ⟨[.payload [7]]⟩ [([5,6,6],[1]), ([2,0,9],[2])]
    [([2,0,9],[2]), ([5,6,6],[1])] (by decide) (by decide)

/-- Written from the spec's words (section 4.1): the stored pivot is the
midpoint key truncated to max(1, len(common_prefix)+1) characters, where
common_prefix is the longest common prefix of the midpoint key and the
first key of each immediate child. -/
def specPivot (midKey leftKey rightKey : Key) : Key :=
  midKey.take (max 1 ((commonPrefixOf [midKey, leftKey, rightKey]).length + 1))

/-- C3: whenever the construction builds an internal node, its stored pivot
equals the spec formula applied to the midpoint key and the first keys of
the two child subtree roots. -/
theorem claim_C3 (items : Items) (nodes : List Node) (h2 : 2 ≤ items.length)
    (h : TreeBuilder.makeSubtree items = some nodes) :
    ∃ mid lc lt rc rt tl,
      (items.drop (items.length / 2)).head? = some mid ∧
      TreeBuilder.makeSubtree (items.take (items.length / 2)) = some (lc :: lt) ∧
      TreeBuilder.makeSubtree (items.drop (items.length / 2)) = some (rc :: rt) ∧
      nodes = Node.node (specPivot mid.1 (getNodeKey lc) (getNodeKey rc))
                (some lc) (some rc) :: tl := by
  match items, h2, h with
  | x :: y :: rest, _, h =>
      obtain ⟨pk, pv, lc, lt, rc, rt, hdrop, hleft, hright, hnodes⟩ :=
        makeSubtree_cons_inv x y rest nodes h
      exact ⟨(pk, pv), lc, lt, rc, rt, _, hdrop, hleft, hright, by rw [hnodes]; rfl⟩

/-- The sorted two-item list and the node list it builds. -/
def exSorted : Items := [([2,0,9],[2]), ([5,6,6],[1])]

/-- The pre-order node list built from the sorted two-item list. -/
def exNodes : List Node := [exRoot, .leaf [2,0,9] [2], .leaf [5,6,6] [1]]

theorem exSorted_make : TreeBuilder.makeSubtree exSorted = some exNodes := by
  simp [exSorted, exNodes, exRoot, TreeBuilder.makeSubtree, commonPrefixOf,
    commonPrefix2, getNodeKey]

/-- C3 witness: the pivot of the two-item example is the spec formula. -/
theorem claim_C3_witness :
    ∃ mid lc lt rc rt tl,
      (exSorted.drop (exSorted.length / 2)).head? = some mid ∧
      TreeBuilder.makeSubtree (exSorted.take (exSorted.length / 2)) = some (lc :: lt) ∧
      TreeBuilder.makeSubtree (exSorted.drop (exSorted.length / 2)) = some (rc :: rt) ∧
      exNodes = Node.node (specPivot mid.1 (getNodeKey lc) (getNodeKey rc))
                 (some lc) (some rc) :: tl :=
  claim_C3 exSorted exNodes (by decide) exSorted_make

/-- C4: a successful build of two or more items splits at the midpoint
index m = len / 2, with the pivot item heading the (never empty) right
partition, recurses on both partitions, and returns the pre-order list
headed by the internal node followed by the flattened partitions. -/
theorem claim_C4 (items : Items) (nodes : List Node) (h2 : 2 ≤ items.length)
    (h : TreeBuilder.makeSubtree items = some nodes) :
    1 ≤ items.length / 2 ∧ items.length / 2 < items.length ∧
    (items.drop (items.length / 2)).head? = items[items.length / 2]? ∧
    items.drop (items.length / 2) ≠ [] ∧
    ∃ ln rn internal,
      TreeBuilder.makeSubtree (items.take (items.length / 2)) = some ln ∧
      TreeBuilder.makeSubtree (items.drop (items.length / 2)) = some rn ∧
      nodes = internal :: (ln ++ rn) ∧
      ∃ pp lh rh, internal = Node.node pp lh rh := by
  match items, h2, h with
  | x :: y :: rest, _, h =>
      obtain ⟨pk, pv, lc, lt, rc, rt, hdrop, hleft, hright, hnodes⟩ :=
        makeSubtree_cons_inv x y rest nodes h
      have hlen2 : (x :: y :: rest).length = rest.length + 2 := by simp
      refine ⟨by rw [hlen2]; omega, by rw [hlen2]; omega, List.head?_drop _ _, ?_, ?_⟩
      · intro he
        rw [he] at hdrop
        exact Option.noConfusion hdrop
      · exact ⟨lc :: lt, rc :: rt, _, hleft, hright, hnodes, _, _, _, rfl⟩

/-- C4 witness: the split facts at the concrete two-item list. -/
theorem claim_C4_witness :
    1 ≤ exSorted.length / 2 ∧ exSorted.length / 2 < exSorted.length ∧
    (exSorted.drop (exSorted.length / 2)).head? = exSorted[exSorted.length / 2]? ∧
    exSorted.drop (exSorted.length / 2) ≠ [] ∧
    ∃ ln rn internal,
      TreeBuilder.makeSubtree (exSorted.take (exSorted.length / 2)) = some ln ∧
      TreeBuilder.makeSubtree (exSorted.drop (exSorted.length / 2)) = some rn ∧
      exNodes = internal :: (ln ++ rn) ∧
      ∃ pp lh rh, internal = Node.node pp lh rh :=
  claim_C4 exSorted exNodes (by decide) exSorted_make

/-- C5: the proof traversal returns the singleton path at a leaf; at an
internal node with both children resolvable it compares the lookup key with
the pivot, descends left adding the resolved right child to the closure
when the key is smaller, and descends right adding the resolved left child
otherwise, prepending the visited node to the returned root-to-leaf
path; the traversal starts at the resolved root node. -/
theorem claim_C5 (s : Store) (key : Key) :
    (∀ (k : Key) (p : Bytes), proofLoop s key (Node.leaf k p) = .ok ([Node.leaf k p], [])) ∧
    (∀ t : Tree, Tree.getInclusionProof t key =
      (match t.getNodeByHash t.root with
       | some rn => proofLoop t.object_store key rn
       | none => .error .crash)) ∧
    (∀ (pp : Key) (lc rc : Node),
      StoreObj.node lc ∈ s.objects → StoreObj.node rc ∈ s.objects →
      proofLoop s key (Node.node pp (some lc) (some rc)) =
        (if keyLt key pp then
          match proofLoop s key lc with
          | .ok pc => .ok (Node.node pp (some lc) (some rc) :: pc.1, rc :: pc.2)
          | .error e => .error e
        else
          match proofLoop s key rc with
          | .ok pc => .ok (Node.node pp (some lc) (some rc) :: pc.1, lc :: pc.2)
          | .error e => .error e)) := by
  refine ⟨fun k p => rfl, fun t => rfl, fun pp lc rc hl hr => ?_⟩
  rw [show proofLoop s key (Node.node pp (some lc) (some rc)) =
        (if keyLt key pp then
          match resolveNode s lc with
          | none => .error .crash
          | some _ =>
            match proofLoop s key lc with
            | .ok (path, closure) =>
                .ok (Node.node pp (some lc) (some rc) :: path,
                     (resolveNode s rc).toList ++ closure)
            | .error e => .error e
        else
          match resolveNode s rc with
          | none => .error .crash
          | some _ =>
            match proofLoop s key rc with
            | .ok (path, closure) =>
                .ok (Node.node pp (some lc) (some rc) :: path,
                     (resolveNode s lc).toList ++ closure)
            | .error e => .error e) from rfl]
  rw [resolveNode_eq s lc, resolveNode_eq s rc]
  cases hk : keyLt key pp with
  | false =>
      cases hres : proofLoop s key rc with
      | ok pc => cases pc with | mk a b => simp [hl, hr, hres]
      | error e => simp [hl, hr, hres]
  | true =>
      cases hres : proofLoop s key lc with
      | ok pc => cases pc with | mk a b => simp [hl, hr, hres]
      | error e => simp [hl, hr, hres]

/-- Concrete two-leaf store for the traversal witness. -/
def exS5 : Store := ⟨[.node (.leaf [0] [1]), .node (.leaf [2] [3])]⟩

/-- C5 witness: the traversal step at a concrete internal node. -/
theorem claim_C5_witness :
    StoreObj.node (Node.leaf [0] [1]) ∈ exS5.objects ∧
    proofLoop exS5 [0] (Node.node [2] (some (Node.leaf [0] [1])) (some (Node.leaf [2] [3]))) =
      (if keyLt [0] [2] then
        match proofLoop exS5 [0] (Node.leaf [0] [1]) with
        | .ok pc => .ok (Node.node [2] (some (Node.leaf [0] [1])) (some (Node.leaf [2] [3])) :: pc.1,
                         Node.leaf [2] [3] :: pc.2)
        | .error e => .error e
      else
        match proofLoop exS5 [0] (Node.leaf [2] [3]) with
        | .ok pc => .ok (Node.node [2] (some (Node.leaf [0] [1])) (some (Node.leaf [2] [3])) :: pc.1,
                         Node.leaf [0] [1] :: pc.2)
        | .error e => .error e) :=
  ⟨by decide, (claim_C5 exS5 [0]).2.2 [2] (Node.leaf [0] [1]) (Node.leaf [2] [3])
    (by decide) (by decide)⟩

/-- C6: on a committed tree, looking up a key that was never staged raises
KeyError and the traversal's terminal leaf carries a different key; in
general the lookup returns a value exactly when the terminal leaf of the
traversal carries the queried key. -/
theorem claim_C6 (b b' : TreeBuilder) (t : Tree) (key : Key)
    (h : TreeBuilder.commit b = some (b', t)) :
    (key ∉ itemKeys b.items →
      Tree.getItem t key = .error .keyError ∧
      ∃ path closure k p, Tree.getInclusionProof t key = .ok (path, closure) ∧
        path.getLast? = some (Node.leaf k p) ∧ k ≠ key) ∧
    ((∃ v, Tree.getItem t key = .ok v) ↔
      ∃ path closure k p, Tree.getInclusionProof t key = .ok (path, closure) ∧
        path.getLast? = some (Node.leaf k p) ∧ k = key) := by
  obtain ⟨path, closure, k, p, hincl, hlast, hkin, hyes, hno⟩ :=
    commit_lookup b b' t h key
  constructor
  · intro hkey
    have hne : k ≠ key := fun e => hkey (e ▸ hkin)
    exact ⟨hno hne, path, closure, k, p, hincl, hlast, hne⟩
  · constructor
    · rintro ⟨v, hv⟩
      by_cases hkk : k = key
      · exact ⟨path, closure, k, p, hincl, hlast, hkk⟩
      · rw [hno hkk] at hv
        exact Except.noConfusion hv
    · rintro ⟨path', closure', k', p', hincl', hlast', rfl⟩
      rw [hincl] at hincl'
      injection hincl' with e
      injection e with e1 e2
      subst e1
      subst e2
      rw [hlast] at hlast'
      injection hlast' with e
      injection e with e1 e2
      exact hyes e1

/-- C6 witness: looking up the never-staged key 9 in the committed two-item
example raises KeyError. -/
theorem claim_C6_witness : Tree.getItem exTree [9] = .error .keyError :=
  ((claim_C6 exB exBPost exTree [9] exB_commit).1 (by decide)).1

/-- Decidable check of the claimed ordering invariant: at every internal
node, every leaf key reachable under the left child compares strictly below
the pivot and every leaf key reachable under the right child does not. -/
def bstInv : Node → Bool
  | .leaf _ _ => true
  | .node _ none none => true
  | .node pp (some l) none => (leafKeys l).all (fun k => keyLt k pp) && bstInv l
  | .node pp none (some r) => (leafKeys r).all (fun k => !keyLt k pp) && bstInv r
  | .node pp (some l) (some r) =>
      (leafKeys l).all (fun k => keyLt k pp) &&
      (leafKeys r).all (fun k => !keyLt k pp) && bstInv l && bstInv r

/-- C1 fails on the code: the three keys 00, 01 and 1 (as strings: aa, ab,
b) are staged with distinct keys, yet after commit the key 00 is not
contained in the tree and its retrieval raises KeyError instead of
returning the staged bytes. -/
theorem claim_C1_bug :
    [0,0] ∈ itemKeys cexB.items ∧ (itemKeys cexB.items).Nodup ∧
    Option.map (fun p => Tree.containsKey p.2 [0,0]) (TreeBuilder.commit cexB) =
      some (.ok false) ∧
    Option.map (fun p => Tree.getItem p.2 [0,0]) (TreeBuilder.commit cexB) =
      some (.error .keyError) := by
  refine ⟨by decide, by decide, ?_, ?_⟩ <;> rw [cexB_commit] <;> decide

/-- C2 fails on the code: the tree committed from the keys 00, 01 and 1
violates the prefix ordering invariant — its root pivot is truncated to the
single character 0 while the left subtree holds the key 00, which does not
compare strictly below 0. -/
theorem claim_C2_bug :
    Option.map (fun p => bstInv p.2.root) (TreeBuilder.commit cexB) = some false ∧
    keyLt [0,0] [0] = false ∧
    cexTree.root = Node.node [0] (some (.leaf [0,0] [10]))
      (some (.node [1] (some (.leaf [0,1] [11])) (some (.leaf [1] [12])))) := by
  refine ⟨?_, by decide, by decide⟩
  rw [cexB_commit]
  decide

/-- C7 witness: committing an empty builder over an empty store fails. -/
theorem claim_C7_witness : TreeBuilder.commit ⟨⟨[]⟩, ([] : Items)⟩ = none :=
  (claim_C7 ⟨[]⟩).1

end Hippiepug
